import Mathlib

/-!
Shallow embedding of the PyVM layered velocity-model engine
(`pyvm/models/vm.py`, `tools.py`, `io.py`, `grids.py`, `exceptions.py`).

Conventions of the embedding:
* numpy floating-point arrays are modelled over `ℚ` (exact arithmetic);
  the explicit 32-bit truncations performed by the source (`np.float32`,
  `np.int32`) are modelled by the computable functions `f32` / `wrap32`.
* a 2-D `(nx, ny)` numpy array is a `List (List ℚ)` (x outer, y inner);
  a 3-D array is a `List (List (List ℚ))` in the same row-major order.
* in-memory interface mask arrays `ir`, `ij` are float arrays in the
  source (`iref * np.ones(...)`), hence also `List (List ℚ)` here.
* numpy scalar indexing out of range (IndexError) and failing `assert`
  statements are modelled by `Option`, with `none` for raised errors.
-/

namespace PyVM

/-- Map over a list with the element index available, starting at index `s`. -/
def mapIdxFrom (f : ℕ → α → β) : ℕ → List α → List β
  | _, [] => []
  | s, x :: xs => f s x :: mapIdxFrom f (s + 1) xs

/-- Python loop `for i in range(s, s + n): a = body i a`. -/
def loopUp (f : ℕ → α → α) (s : ℕ) : ℕ → α → α
  | 0, a => a
  | n + 1, a => loopUp f (s + 1) n (f s a)

/-- Split a list into consecutive chunks of `k` elements (numpy reshape helper). -/
def chunk : ℕ → List α → List (List α)
  | _, [] => []
  | 0, _ :: _ => []
  | k + 1, x :: xs => (x :: xs).take (k + 1) :: chunk (k + 1) (xs.drop k)
termination_by _ l => l.length
decreasing_by
  simp only [List.length_cons, List.length_drop]
  omega

/-- Round a rational to the nearest integer, ties to even (numpy `np.round`). -/
def rhalfEven (q : ℚ) : ℤ :=
  let f := ⌊q⌋
  let r := q - f
  if r < 1 / 2 then f
  else if 1 / 2 < r then f + 1
  else if f % 2 = 0 then f else f + 1

/-- Floor of the base-2 logarithm of a positive rational. -/
def ilog2q (a : ℚ) : ℤ :=
  let e0 : ℤ := (Nat.log2 a.num.toNat : ℤ) - (Nat.log2 a.den : ℤ)
  if (2 : ℚ) ^ (e0 + 1) ≤ a then e0 + 1
  else if (2 : ℚ) ^ e0 ≤ a then e0
  else e0 - 1

/-- Conversion of a rational to the nearest IEEE-754 binary32 value
(numpy `np.float32`): round to nearest with ties to even at a 24-bit
significand, with the subnormal range below `2 ^ (-126)`; overflow to
infinity is not modelled (all values in scope are small and finite). -/
def f32 (q : ℚ) : ℚ :=
  if q = 0 then 0
  else
    let a := |q|
    let e := max (ilog2q a) (-126)
    let quantum := (2 : ℚ) ^ (e - 23)
    let m := rhalfEven (a / quantum)
    (if q < 0 then -1 else 1) * (m : ℚ) * quantum

/-- Truncation of a rational toward zero (C float-to-int cast, `np.int32(x)`
for a float `x`, before wrapping). -/
def ratTrunc (q : ℚ) : ℤ :=
  if q < 0 then ⌈q⌉ else ⌊q⌋

/-- Wrap an integer into the signed 32-bit range (numpy `np.int32`). -/
def wrap32 (z : ℤ) : ℤ :=
  (z + 2 ^ 31) % 2 ^ 32 - 2 ^ 31

/-- Conversion applied by `np.int32` to a float value: truncate, then wrap. -/
def toInt32 (q : ℚ) : ℤ :=
  wrap32 (ratTrunc q)

/-! ## The model data type

`VM` mirrors the state of a `pyvm.models.vm.VM` instance: a
`CartesianGrid3D` (shape, origin, spacing and the slowness values `sl`,
see `grids.py`) together with the interface arrays `rf`, `jp`, `ir`, `ij`
(shape `(nr, nx, ny)` each).  The counts `nx, ny, nz` are the grid array
shape; `nr` is derived from `rf` as in the source (`len(self.rf)`). -/

/-- A 2-D `(nx, ny)` float array. -/
abbrev Surf := List (List ℚ)

@[ext]
structure VM where
  nx : ℕ
  ny : ℕ
  nz : ℕ
  x0 : ℚ
  y0 : ℚ
  z0 : ℚ
  dx : ℚ
  dy : ℚ
  dz : ℚ
  sl : List (List (List ℚ))
  rf : List Surf
  jp : List Surf
  ir : List Surf
  ij : List Surf
deriving DecidableEq

/-- Number of interfaces, `len(self.rf)` as in `vm.py`. -/
def VM.nr (m : VM) : ℕ := m.rf.length

/-- Shape predicate for a 2-D array. -/
def Shape2 (a b : ℕ) (s : Surf) : Prop :=
  s.length = a ∧ ∀ r ∈ s, r.length = b

/-- Shape predicate for a 3-D array. -/
def Shape3 (a b c : ℕ) (v : List (List (List ℚ))) : Prop :=
  v.length = a ∧ ∀ p ∈ v, Shape2 b c p

instance (a b : ℕ) (s : Surf) : Decidable (Shape2 a b s) := by
  unfold Shape2; infer_instance

instance (a b c : ℕ) (v : List (List (List ℚ))) : Decidable (Shape3 a b c v) := by
  unfold Shape3; infer_instance

/-- Well-formedness: all arrays have the shapes the source maintains. -/
def VM.WF (m : VM) : Prop :=
  Shape3 m.nx m.ny m.nz m.sl ∧ Shape3 m.nr m.nx m.ny m.rf ∧
    Shape3 m.nr m.nx m.ny m.jp ∧ Shape3 m.nr m.nx m.ny m.ir ∧
    Shape3 m.nr m.nx m.ny m.ij

instance (m : VM) : Decidable m.WF := by
  unfold VM.WF; infer_instance

/-- Constant `(nx, ny)` surface, `v * np.ones((nx, ny))`. -/
def constSurf (nx ny : ℕ) (v : ℚ) : Surf :=
  (List.range nx).map (fun _ => (List.range ny).map (fun _ => v))

/-- Element of a 2-D array (in-range access under `Shape2`). -/
def getS (s : Surf) (ix iy : ℕ) : ℚ :=
  (s.getD ix []).getD iy 0

/-- Element of a 3-D array (in-range access under `Shape3`). -/
def getV (v : List (List (List ℚ))) (ix iy iz : ℕ) : ℚ :=
  ((v.getD ix []).getD iy []).getD iz 0

/-- Maximum of a nonempty list (`np.nanmax`; rationals carry no NaN). -/
def lmax : List ℚ → ℚ
  | [] => 0
  | x :: xs => xs.foldl max x

/-- Maximum over a 2-D array, `np.nanmax` of an `(nx, ny)` array. -/
def surfMax (s : Surf) : ℚ :=
  lmax s.flatten

/-- Elementwise combination of two surfaces (numpy broadcasting on equal
shapes, e.g. `np.minimum`, `np.maximum`, subtraction). -/
def zip2 (f : ℚ → ℚ → ℚ) (a b : Surf) : Surf :=
  List.zipWith (List.zipWith f) a b

/-- Grid z-axis coordinates, `origin[2] + dz * np.arange(nz)` (`grids.py`). -/
def VM.zcoords (m : VM) : List ℚ :=
  (List.range m.nz).map (fun i => m.z0 + m.dz * (i : ℚ))

/-- Model far corner `r2 = (x[-1], y[-1], z[-1])` (`vm.py`); the grid has
at least one node per axis. -/
def VM.r2x (m : VM) : ℚ := m.x0 + m.dx * ((m.nx - 1 : ℕ) : ℚ)

def VM.r2y (m : VM) : ℚ := m.y0 + m.dy * ((m.ny - 1 : ℕ) : ℚ)

def VM.r2z (m : VM) : ℚ := m.z0 + m.dz * ((m.nz - 1 : ℕ) : ℚ)

/-- Coordinate to grid index, `clip(round((x - x0) / dx), 0, nx - 1)`
(`coord2index` in `grids.py`). -/
def coord2index (x x0 dx : ℚ) (n : ℕ) : ℕ :=
  (min (max (rhalfEven ((x - x0) / dx)) 0) ((n : ℤ) - 1)).toNat

/-- Scalar versions of `grid.x2i`, `grid.y2i`, `grid.z2i`. -/
def VM.x2i (m : VM) (x : ℚ) : ℕ := coord2index x m.x0 m.dx m.nx

def VM.y2i (m : VM) (y : ℚ) : ℕ := coord2index y m.y0 m.dy m.ny

def VM.z2i (m : VM) (z : ℚ) : ℕ := coord2index z m.z0 m.dz m.nz

/-- Python `range(a, b)` as a list of naturals. -/
def pyRange (a b : ℕ) : List ℕ :=
  List.range' a (b - a)

/-- Indices for an x-coordinate range, `VM.xrange2i` in `vm.py`. -/
def VM.xrange2i (m : VM) (xmin xmax : Option ℚ) : List ℕ :=
  let lo := match xmin with
    | none => m.x0
    | some v => max m.x0 v
  let hi := match xmax with
    | none => m.r2x
    | some v => min m.r2x v
  pyRange (m.x2i lo) (m.x2i hi + 1)

/-- Indices for a y-coordinate range, `VM.yrange2i` in `vm.py`. -/
def VM.yrange2i (m : VM) (ymin ymax : Option ℚ) : List ℕ :=
  let lo := match ymin with
    | none => m.y0
    | some v => max m.y0 v
  let hi := match ymax with
    | none => m.r2y
    | some v => min m.r2y v
  pyRange (m.y2i lo) (m.y2i hi + 1)

/-- Surfaces bounding layer `ilyr` (`VM.get_layer_bounds`); the failing
`assert` for `ilyr` outside `[0, nr]` is `none`. -/
def VM.get_layer_bounds (m : VM) (ilyr : ℤ) : Option (Surf × Surf) :=
  if ilyr < 0 ∨ (m.nr : ℤ) < ilyr then none
  else
    let z0s := if ilyr = 0 then constSurf m.nx m.ny m.z0
      else m.rf.getD (ilyr - 1).toNat []
    let z1s := if (m.nr : ℤ) ≤ ilyr then constSurf m.nx m.ny m.r2z
      else m.rf.getD ilyr.toNat []
    some (z0s, z1s)

/-! ## VMTools (`tools.py`) -/

/-- An argument that may be a scalar (broadcast to `(nx, ny)`) or a full
surface, as accepted by `insert_interface`. -/
inductive ScalarOrArr where
  | scalar (v : ℚ)
  | arr (a : Surf)
deriving DecidableEq

/-- Scalar broadcast (`rf *= np.ones((nx, ny))` when `np.asarray(rf).size == 1`). -/
def expandArg (nx ny : ℕ) : ScalarOrArr → Surf
  | .scalar v => constSurf nx ny v
  | .arr a => a

/-- Renumbering step of `insert_interface`: entries `>= iref` are
incremented by one (`self.ir[_iref][idx] += 1`). -/
def bumpSurf (iref : ℕ) (s : Surf) : Surf :=
  s.map (List.map (fun v => if (iref : ℚ) ≤ v then v + 1 else v))

/-- `VMTools.insert_interface`.  Returns the updated model and the index
`iref` of the new interface.  Mirrors the source: the insertion index is
computed by the counting loop over `np.nanmax` values; defaults for
`jp`, `ir`, `ij` are built from `iref`; for an empty model the four
interface arrays are created fresh — with `self.ij = np.asarray([jp])`
exactly as in the source; otherwise `np.insert(..., iref, ..., 0)`;
finally mask entries of the interfaces after the insertion point are
renumbered. -/
def VM.insert_interface (m : VM) (rf0 : ScalarOrArr)
    (jp0 ir0 ij0 : Option ScalarOrArr) : VM × ℕ :=
  let rfA := expandArg m.nx m.ny rf0
  let iref : ℕ := loopUp
    (fun i acc => if surfMax (m.rf.getD i []) ≤ surfMax rfA then acc + 1 else acc)
    0 m.nr 0
  let jpA := (jp0.map (expandArg m.nx m.ny)).getD (constSurf m.nx m.ny 0)
  let irA := (ir0.map (expandArg m.nx m.ny)).getD (constSurf m.nx m.ny (iref : ℚ))
  let ijA := (ij0.map (expandArg m.nx m.ny)).getD (constSurf m.nx m.ny (iref : ℚ))
  let arrs :=
    if m.nr = 0 then
      ([rfA], [jpA], [irA], [jpA])
    else
      (m.rf.insertIdx iref rfA, m.jp.insertIdx iref jpA,
        m.ir.insertIdx iref irA, m.ij.insertIdx iref ijA)
  let ir2 := mapIdxFrom (fun k s => if iref + 1 ≤ k then bumpSurf iref s else s) 0 arrs.2.2.1
  let ij2 := mapIdxFrom (fun k s => if iref + 1 ≤ k then bumpSurf iref s else s) 0 arrs.2.2.2
  ({ m with rf := arrs.1, jp := arrs.2.1, ir := ir2, ij := ij2 }, iref)

/-- One iteration of the ordering loop of `fix_pinchouts`: surfaces
`i - 1` and `i` are replaced by their pointwise `np.minimum` and
`np.maximum`. -/
def sortStep (i : ℕ) (l : List Surf) : List Surf :=
  let a := l.getD (i - 1) []
  let b := l.getD i []
  (l.set (i - 1) (zip2 min a b)).set i (zip2 max a b)

/-- One iteration of the spacing loop of `fix_pinchouts`: where the gap
`rf[i] - rf[i - 1]` is below `d`, surface `i` is pushed down by
`d - gap` (`self.rf[ir][idx] += min_dz - dz[idx]`). -/
def sepStep (d : ℚ) (i : ℕ) (l : List Surf) : List Surf :=
  let a := l.getD (i - 1) []
  let b := l.getD i []
  l.set i (zip2 (fun x y => if y - x < d then y + (d - (y - x)) else y) a b)

/-- `VMTools.fix_pinchouts`: first orders each adjacent pair of depth
surfaces pointwise, then enforces the minimum separation, both by a
`for ir in range(1, self.nr)` loop; `min_dz` defaults to `self.dz`. -/
def VM.fix_pinchouts (m : VM) (min_dz : Option ℚ) : VM :=
  let d := min_dz.getD m.dz
  let rf1 := loopUp sortStep 1 (m.nr - 1) m.rf
  let rf2 := loopUp (sepStep d) 1 (m.nr - 1) rf1
  { m with rf := rf2 }

/-- Body of the `apply_jumps` loop for one interface `r`: with `z0s` the
top surface of layer `r + 1`, adds (`remove = false`) or subtracts the
jump `self.jp[r, ix, iy]` on `self.sl[ix, iy, iz0:]` for every column. -/
def addJump (m : VM) (z0s : Surf) (r : ℕ) (remove : Bool) : VM :=
  let newsl := mapIdxFrom (fun ix col =>
    mapIdxFrom (fun iy zs =>
      let iz0 := m.z2i (getS z0s ix iy)
      let j := getS (m.jp.getD r []) ix iy
      mapIdxFrom (fun iz v =>
        if iz0 ≤ iz then (if remove then v - j else v + j) else v) 0 zs) 0 col) 0 m.sl
  { m with sl := newsl }

/-- `VM.apply_jumps`; the default selection is `range(0, self.nr)`, and a
selection entry whose `get_layer_bounds` assertion fails yields `none`. -/
def VM.apply_jumps (m : VM) (iref : Option (List ℕ)) (remove : Bool) : Option VM :=
  let sel := iref.getD (List.range m.nr)
  sel.foldlM (fun acc (r : ℕ) =>
    (acc.get_layer_bounds ((r : ℤ) + 1)).map (fun zb => addJump acc zb.1 r remove)) m

/-- `VM.remove_jumps` delegates to `apply_jumps` with `remove=True`. -/
def VM.remove_jumps (m : VM) (iref : Option (List ℕ)) : Option VM :=
  m.apply_jumps iref true

/-- Piecewise-linear interpolation through the node list (model of
`scipy.interpolate.interp1d(zi, vi, kind='linear')` evaluated at one
point, for increasing `zi`). -/
def interpLin : List (ℚ × ℚ) → ℚ → ℚ
  | [], _ => 0
  | [p], _ => p.2
  | p :: q :: rest, x =>
    if x ≤ q.1 then p.2 + (q.2 - p.2) * (x - p.1) / (q.1 - p.1)
    else interpLin (q :: rest) x

/-- Per-column body of `define_stretched_layer_velocities` (`tools.py`,
`kind='linear'`): computes the layer's index span, skips the column when
the span `z` is empty, resolves a `None` in `vel[0]` from
`self.sl[ix, iy, max(iz0 - 1, 0)]` and a `None` in `vel[1]` from
`self.sl[ix, iy, min(iz1 + 1, self.nx)]`, stretches the velocity nodes
over the layer and writes `1 / v` onto the span.  A numpy `IndexError`
(scalar index out of range) or an interpolation over unresolved `None`
values is `none`. -/
def dslvColCore (zc : List ℚ) (nx nz : ℕ) (zo dzv : ℚ) (z0v z1v : ℚ)
    (vel : List (Option ℚ)) (col : List ℚ) : Option (List ℚ) :=
  let iz0 := coord2index z0v zo dzv nz
  let iz1 := coord2index z1v zo dzv nz + 1
  let z := (zc.drop iz0).take (iz1 - iz0)
  if z.length = 0 then some col
  else
    match vel with
    | [] => none
    | v0 :: rest =>
      let ov0 : Option ℚ := match v0 with
        | some v => some v
        | none => (col.get? (iz0 - 1)).map (fun u => 1 / u)
      match ov0 with
      | none => none
      | some w0 =>
        let orest : Option (List (Option ℚ)) := match rest with
          | [] => some []
          | v1 :: r2 =>
            match v1 with
            | some _ => some rest
            | none => (col.get? (min (iz1 + 1) nx)).map (fun u => some (1 / u) :: r2)
        match orest with
        | none => none
        | some rest2 =>
          match (rest2.mapM id : Option (List ℚ)) with
          | none => none
          | some restv =>
            let velR := w0 :: restv
            let nvel := vel.length
            let vlist :=
              if nvel = 1 then z.map (fun _ => w0)
              else
                let zi := (List.range nvel).map
                  (fun j => z0v + (z1v - z0v) * (j : ℚ) / ((nvel : ℚ) - 1))
                let pr :=
                  if z.headD 0 < zi.headD 0 then (z.headD 0 :: zi, w0 :: velR)
                  else (zi, velR)
                let pr2 :=
                  if z.getLastD 0 > pr.1.getLastD 0 then
                    (pr.1 ++ [z.getLastD 0], pr.2 ++ [velR.getLastD 0])
                  else pr
                z.map (interpLin (pr2.1.zip pr2.2))
            some (mapIdxFrom (fun iz u =>
              if iz0 ≤ iz ∧ iz < iz1 then 1 / (vlist.getD (iz - iz0) 0) else u) 0 col)

/-- `VMTools.define_stretched_layer_velocities` with `kind='linear'`,
iterating the per-column body over the selected x/y index ranges. -/
def VM.define_stretched_layer_velocities (m : VM) (ilyr : ℤ)
    (vel : List (Option ℚ)) (xmin xmax ymin ymax : Option ℚ) : Option VM :=
  match m.get_layer_bounds ilyr with
  | none => none
  | some zb =>
    let ixs := m.xrange2i xmin xmax
    let iys := m.yrange2i ymin ymax
    ixs.foldlM (fun acc (ix : ℕ) =>
      iys.foldlM (fun acc2 (iy : ℕ) =>
        match (acc2.sl.get? ix).bind (fun c => c.get? iy) with
        | none => none
        | some col =>
          (dslvColCore acc2.zcoords acc2.nx acc2.nz acc2.z0 acc2.dz
            (getS zb.1 ix iy) (getS zb.2 ix iy) vel col).map
            (fun col2 =>
              { acc2 with sl := acc2.sl.set ix ((acc2.sl.getD ix []).set iy col2) }))
        acc) m

/-! ## Serializer (`io.py`)

The word-level packing module `pyvm.io` (`pack` / `unpack`) is not part
of the source tree; it is modelled from the spec (§4.3): the stream is a
sequence of 32-bit words, each a signed integer or an IEEE-754 binary32
float.  `_write_vm` itself performs the `np.int32` / `np.float32`
conversions, so the pack functions store their argument exactly. -/

/-- One 32-bit word of the binary model format. -/
inductive Word where
  | i (v : ℤ)
  | f (q : ℚ)
deriving DecidableEq

/-- Modelled from the spec: `pack.pack_4byte_Integer` appends one 32-bit
signed integer word. -/
def pack4byteInteger (z : ℤ) : Word := .i z

/-- Modelled from the spec: `pack.pack_4byte_IEEE` appends one 32-bit
float word. -/
def pack4byteIEEE (q : ℚ) : Word := .f q

def wordInt : Word → Option ℤ
  | .i v => some v
  | .f _ => none

def wordFlt : Word → Option ℚ
  | .f q => some q
  | .i _ => none

/-- Read `n` words through the decoder `p`, returning the values and the
rest of the stream; a wrong word kind or a truncated stream is `none`. -/
def takeW (p : Word → Option β) : ℕ → List Word → Option (List β × List Word)
  | 0, ws => some ([], ws)
  | _ + 1, [] => none
  | n + 1, w :: ws =>
    match p w with
    | none => none
    | some b =>
      match takeW p n ws with
      | none => none
      | some br => some (b :: br.1, br.2)

/-- Modelled from the spec: `unpack.unpack_4byte_Integer(buf, n)`. -/
def unpackInts (n : ℕ) (ws : List Word) : Option (List ℤ × List Word) :=
  takeW wordInt n ws

/-- Modelled from the spec: `unpack.unpack_4byte_IEEE(buf, n)`. -/
def unpackFlts (n : ℕ) (ws : List Word) : Option (List ℚ × List Word) :=
  takeW wordFlt n ws

/-- Row-major flattening of a 3-D array (`np.reshape(v, (a * b * c,))`). -/
def flat3 (v : List (List (List α))) : List α :=
  (v.map List.flatten).flatten

/-- Row-major reshaping of a flat array to shape `(a, b, c)`
(`np.reshape(l, (a, b, c))`; lengths agree at every use site). -/
def reshape3 (_a b c : ℕ) (l : List α) : List (List (List α)) :=
  (chunk (b * c) l).map (chunk c)

/-- Elementwise map over a 3-D array. -/
def map3 (f : α → β) (v : List (List (List α))) : List (List (List β)) :=
  v.map (List.map (List.map f))

/-- `VMIO._write_vm`: header `nx, ny, nz, nr` as `np.int32`, then `r1`,
`r2` and the spacing as `np.float32`, the flattened grid as `np.float32`,
and if `nr > 0` the flattened `rf`, `jp` (`np.float32`) and `ir + 1`,
`ij + 1` (`np.int32`). -/
def VM.write_vm (m : VM) : List Word :=
  [pack4byteInteger (wrap32 m.nx), pack4byteInteger (wrap32 m.ny),
    pack4byteInteger (wrap32 m.nz), pack4byteInteger (wrap32 m.nr)]
  ++ ([m.x0, m.y0, m.z0].map (fun q => pack4byteIEEE (f32 q)))
  ++ ([m.r2x, m.r2y, m.r2z].map (fun q => pack4byteIEEE (f32 q)))
  ++ ([m.dx, m.dy, m.dz].map (fun q => pack4byteIEEE (f32 q)))
  ++ (flat3 m.sl).map (fun q => pack4byteIEEE (f32 q))
  ++ (if m.nr > 0 then
        (flat3 m.rf).map (fun q => pack4byteIEEE (f32 q))
        ++ (flat3 m.jp).map (fun q => pack4byteIEEE (f32 q))
        ++ (flat3 m.ir).map (fun q => pack4byteInteger (toInt32 (q + 1)))
        ++ (flat3 m.ij).map (fun q => pack4byteInteger (toInt32 (q + 1)))
      else [])

/-- `VMIO._read_vm` (with `head_only=False`): reads the header (applying
the 2-D collapse quirk when the `nz` slot is zero), the origin, a
discarded far corner, the spacing, then the grid and — reshaped to
`(nr, nx, ny)` — the interface arrays, subtracting one from the masks. -/
def read_vm (ws : List Word) : Option VM := do
  let (hd, ws1) ← unpackInts 4 ws
  match hd with
  | [nx0, ny0, nz0, nr0] =>
    let nznew := if nz0 = 0 then ny0 else nz0
    let nynew := if nz0 = 0 then 1 else ny0
    let (og, ws2) ← unpackFlts 3 ws1
    let (_r2, ws3) ← unpackFlts 3 ws2
    let (sp, ws4) ← unpackFlts 3 ws3
    match og, sp with
    | [ox, oy, oz], [sx, sy, sz] =>
      let nx := nx0.toNat
      let ny := nynew.toNat
      let nz := nznew.toNat
      let nr := nr0.toNat
      let (slf, ws5) ← unpackFlts (nx * ny * nz) ws4
      let (rff, ws6) ← unpackFlts (nx * ny * nr) ws5
      let (jpf, ws7) ← unpackFlts (nx * ny * nr) ws6
      let (irf, ws8) ← unpackInts (nx * ny * nr) ws7
      let (ijf, _ws9) ← unpackInts (nx * ny * nr) ws8
      some { nx := nx, ny := ny, nz := nz,
             x0 := ox, y0 := oy, z0 := oz, dx := sx, dy := sy, dz := sz,
             sl := reshape3 nx ny nz slf,
             rf := reshape3 nr nx ny rff,
             jp := reshape3 nr nx ny jpf,
             ir := map3 (fun q => q - 1)
               (reshape3 nr nx ny (irf.map (fun (v : ℤ) => (v : ℚ)))),
             ij := map3 (fun q => q - 1)
               (reshape3 nr nx ny (ijf.map (fun (v : ℤ) => (v : ℚ)))) }
    | _, _ => none
  | _ => none

/-! ## Validator (`exceptions.py`) -/

/-- Grid problems reportable by `_check_grid`.  In this embedding `sl` is
always a 3-D array and rationals carry no NaN, so only the zero-slowness
content check can fire. -/
inductive GridProblem where
  | zeroSlowness (n : ℕ)
deriving DecidableEq

/-- Interface problems reportable by `_check_interfaces`.  Rationals
carry no NaN or infinity, so only the shape check can fire. -/
inductive IntfProblem where
  | shapeMismatch
deriving DecidableEq

/-- `VMErrorChecking._check_grid` (problem list; message strings and the
`raise_error` / `warn` reporting of the helper are dropped — `verify`
calls it with both set to `False`). -/
def VM.check_grid (m : VM) : List GridProblem :=
  let n := (flat3 m.sl).countP (fun v => v = 0)
  if n > 0 then [.zeroSlowness n] else []

/-- `VMErrorChecking._check_interfaces`: skipped entirely when `nr = 0`,
otherwise the `rf`-shape check against `(nr, nx, ny)`. -/
def VM.check_interfaces (m : VM) : List IntfProblem :=
  if m.nr = 0 then []
  else if Shape3 m.nr m.nx m.ny m.rf then [] else [.shapeMismatch]

/-- `VMErrorChecking.verify`.  `none` would model a raised `VMError`; the
source line `if raise_error: VMError(msg)` only constructs the exception
object and never raises it (there is no `raise`), and `elif warn:` emits
a non-fatal warning, so every path with problems returns `False`. -/
def VM.verify (m : VM) (raise_error warn : Bool) : Option Bool :=
  let n := m.check_grid.length + m.check_interfaces.length
  if n = 0 then some true
  else
    let _ := raise_error
    let _ := warn
    some false

/-! ## Spec-side definitions used to state the claims -/

/-- Layer bounds exactly as the spec words them: top is the constant
model z-minimum surface for layer 0 and otherwise interface `ℓ - 1`'s
depth surface; bottom is the constant model z-maximum surface for layer
`nr` and otherwise interface `ℓ`'s depth surface. -/
def layerBoundsSpec (m : VM) (ilyr : ℤ) : Surf × Surf :=
  (if ilyr = 0 then constSurf m.nx m.ny m.z0 else m.rf.getD (ilyr - 1).toNat [],
    if ilyr = (m.nr : ℤ) then constSurf m.nx m.ny m.r2z else m.rf.getD ilyr.toNat [])

/-- The image of a model under 32-bit float truncation: every
floating-point quantity is replaced by its binary32 value, the integer
mask arrays are kept exactly. -/
def f32Model (m : VM) : VM :=
  { nx := m.nx, ny := m.ny, nz := m.nz,
    x0 := f32 m.x0, y0 := f32 m.y0, z0 := f32 m.z0,
    dx := f32 m.dx, dy := f32 m.dy, dz := f32 m.dz,
    sl := map3 f32 m.sl, rf := map3 f32 m.rf, jp := map3 f32 m.jp,
    ir := m.ir, ij := m.ij }

/-- Mask arrays whose entries are integers that survive the 1-based
`np.int32` disk convention (`v + 1` fits in a signed 32-bit integer). -/
def MaskOK (v : List Surf) : Prop :=
  ∀ s ∈ v, ∀ r ∈ s, ∀ q ∈ r, q.den = 1 ∧ -(2 ^ 31) ≤ q.num + 1 ∧ q.num + 1 < 2 ^ 31

instance (v : List Surf) : Decidable (MaskOK v) := by
  unfold MaskOK; infer_instance

/-- Uniform `(nx, ny)` shape for every surface of a stack. -/
def AllShape2 (nx ny : ℕ) (l : List Surf) : Prop :=
  ∀ s ∈ l, Shape2 nx ny s

instance (nx ny : ℕ) (l : List Surf) : Decidable (AllShape2 nx ny l) := by
  unfold AllShape2; infer_instance

/-! ## Concrete models used in counterexamples and witnesses -/

/-- An empty two-column model (`nx = 2, ny = 1, nz = 2`, unit spacing,
origin 0, slowness 1 everywhere). -/
def mScn : VM :=
  { nx := 2, ny := 1, nz := 2, x0 := 0, y0 := 0, z0 := 0,
    dx := 1, dy := 1, dz := 1,
    sl := [[[1, 1]], [[1, 1]]], rf := [], jp := [], ir := [], ij := [] }

/-- A one-node model carrying one interface of maximum depth 5. -/
def mTie : VM :=
  { nx := 1, ny := 1, nz := 1, x0 := 0, y0 := 0, z0 := 0,
    dx := 1, dy := 1, dz := 1,
    sl := [[[1]]], rf := [[[5]]], jp := [[[0]]], ir := [[[0]]], ij := [[[0]]] }

/-- A single-column model with one interface at depth 1 and jump 1/4. -/
def mJmp : VM :=
  { nx := 1, ny := 1, nz := 3, x0 := 0, y0 := 0, z0 := 0,
    dx := 1, dy := 1, dz := 1,
    sl := [[[1, 1, 1]]], rf := [[[1]]], jp := [[[1/4]]], ir := [[[0]]], ij := [[[0]]] }

/-- A single-column model with three crossing, too-close interfaces. -/
def mPinch : VM :=
  { nx := 1, ny := 1, nz := 4, x0 := 0, y0 := 0, z0 := 0,
    dx := 1, dy := 1, dz := 1,
    sl := [[[1, 1, 1, 1]]], rf := [[[3]], [[1]], [[3/2]]],
    jp := [[[0]], [[0]], [[0]]], ir := [[[0]], [[1]], [[2]]],
    ij := [[[0]], [[1]], [[2]]] }

/-- A one-node model whose single slowness value is zero. -/
def mZero : VM :=
  { nx := 1, ny := 1, nz := 1, x0 := 0, y0 := 0, z0 := 0,
    dx := 1, dy := 1, dz := 1,
    sl := [[[0]]], rf := [], jp := [], ir := [], ij := [] }

/-- A model with `nx = nz = 2` and one interface, whose bottom layer makes
`define_stretched_layer_velocities` read `sl[ix, iy, min(iz1 + 1, nx)]`
out of the depth range. -/
def mStretch : VM :=
  { nx := 2, ny := 1, nz := 2, x0 := 0, y0 := 0, z0 := 0,
    dx := 1, dy := 1, dz := 1,
    sl := [[[1, 1]], [[1, 1]]], rf := [[[1/2], [1/2]]], jp := [[[0], [0]]],
    ir := [[[0], [0]]], ij := [[[0], [0]]] }

/-- A single-column model whose layer 0 has zero thickness everywhere:
the top bound (model z-origin, 0) equals interface 0's depth (0). -/
def mThin : VM :=
  { nx := 1, ny := 1, nz := 2, x0 := 0, y0 := 0, z0 := 0,
    dx := 1, dy := 1, dz := 1,
    sl := [[[1, 1]]], rf := [[[0]]], jp := [[[0]]], ir := [[[0]]], ij := [[[0]]] }

/-- A one-node model with one interface, used for the serializer
round-trip witness; every stored value is exactly representable in
binary32. -/
def mRT : VM :=
  { nx := 1, ny := 1, nz := 1, x0 := 0, y0 := 0, z0 := 0,
    dx := 1, dy := 1, dz := 1,
    sl := [[[1/2]]], rf := [[[5]]], jp := [[[0]]], ir := [[[0]]], ij := [[[-1]]] }

/-! ## General lemmas about the helper combinators -/

theorem mapIdxFrom_length (f : ℕ → α → β) (s : ℕ) (l : List α) :
    (mapIdxFrom f s l).length = l.length := by
  induction l generalizing s with
  | nil => rfl
  | cons x xs ih => simp [mapIdxFrom, ih]

theorem mapIdxFrom_getD (f : ℕ → α → α) (s : ℕ) (l : List α) (k : ℕ) (d : α) :
    (mapIdxFrom f s l).getD k d =
      if k < l.length then f (s + k) (l.getD k d) else d := by
  induction l generalizing s k with
  | nil => simp [mapIdxFrom]
  | cons x xs ih =>
    cases k with
    | zero => simp [mapIdxFrom]
    | succ k =>
      simp only [mapIdxFrom, List.getD_cons_succ, List.length_cons]
      rw [ih (s + 1) k]
      by_cases h : k < xs.length
      · simp [h, Nat.succ_lt_succ_iff, show s + 1 + k = s + (k + 1) by omega]
      · simp [h, Nat.succ_lt_succ_iff]

theorem mapIdxFrom_fuse (f g : ℕ → α → α) (s : ℕ) (l : List α) :
    mapIdxFrom f s (mapIdxFrom g s l) = mapIdxFrom (fun i x => f i (g i x)) s l := by
  induction l generalizing s with
  | nil => rfl
  | cons x xs ih => simp [mapIdxFrom, ih]

theorem mapIdxFrom_congr {f g : ℕ → α → β} (s : ℕ) (l : List α)
    (h : ∀ i x, f i x = g i x) : mapIdxFrom f s l = mapIdxFrom g s l := by
  induction l generalizing s with
  | nil => rfl
  | cons x xs ih => simp [mapIdxFrom, h, ih]

theorem mapIdxFrom_id (s : ℕ) (l : List α) :
    mapIdxFrom (fun _ x => x) s l = l := by
  induction l generalizing s with
  | nil => rfl
  | cons x xs ih => simp [mapIdxFrom, ih]

theorem loopUp_succ_right (f : ℕ → α → α) (s n : ℕ) (a : α) :
    loopUp f s (n + 1) a = f (s + n) (loopUp f s n a) := by
  induction n generalizing s a with
  | zero => simp [loopUp]
  | succ n ih =>
    show loopUp f (s + 1) (n + 1) (f s a) = _
    rw [ih]
    show f (s + 1 + n) _ = f (s + (n + 1)) (loopUp f (s + 1) n (f s a))
    have : s + 1 + n = s + (n + 1) := by omega
    rw [this]

theorem chunk_nil (k : ℕ) : chunk k ([] : List α) = [] := by
  cases k <;> simp [chunk]

theorem chunk_cons_of_length (k : ℕ) (hk : 0 < k) (x rest : List α) (hx : x.length = k) :
    chunk k (x ++ rest) = x :: chunk k rest := by
  cases k with
  | zero => omega
  | succ k =>
    cases x with
    | nil => simp at hx
    | cons y ys =>
      show chunk (k + 1) (y :: (ys ++ rest)) = _
      rw [chunk]
      have hys : ys.length = k := by simpa using hx
      congr 1
      · rw [show (y :: (ys ++ rest)) = (y :: ys) ++ rest from rfl,
          List.take_append_of_le_length (by simp [hys]),
          ← show (y :: ys).length = k + 1 by simp [hys], List.take_length]
      · rw [List.drop_append_of_le_length (by omega), ← hys, List.drop_length]
        simp

theorem chunk_flatten (k : ℕ) (hk : 0 < k) (L : List (List α))
    (h : ∀ x ∈ L, x.length = k) : chunk k L.flatten = L := by
  induction L with
  | nil => simpa using chunk_nil k
  | cons x xs ih =>
    rw [List.flatten_cons, chunk_cons_of_length k hk x xs.flatten (h x (by simp))]
    rw [ih (fun y hy => h y (by simp [hy]))]

/-- Element access for `List.zipWith` via `getD`. -/
theorem zipWith_getD (f : α → β → γ) (as : List α) (bs : List β) (i : ℕ)
    (da : α) (db : β) (dc : γ) (ha : i < as.length) (hb : i < bs.length) :
    (List.zipWith f as bs).getD i dc = f (as.getD i da) (bs.getD i db) := by
  induction as generalizing bs i with
  | nil => simp at ha
  | cons a as ih =>
    cases bs with
    | nil => simp at hb
    | cons b bs =>
      cases i with
      | zero => simp
      | succ i =>
        simp only [List.zipWith_cons_cons, List.getD_cons_succ]
        exact ih bs i (by simpa using ha) (by simpa using hb)

theorem zipWith_length_eq (f : α → β → γ) (as : List α) (bs : List β)
    (h : as.length = bs.length) : (List.zipWith f as bs).length = as.length := by
  simp [List.length_zipWith, h]

theorem getD_set_self (l : List α) (i : ℕ) (a d : α) (h : i < l.length) :
    (l.set i a).getD i d = a := by
  induction l generalizing i with
  | nil => simp at h
  | cons x xs ih =>
    cases i with
    | zero => simp
    | succ i => simpa using ih i (by simpa using h)

theorem getD_set_ne (l : List α) (i j : ℕ) (a d : α) (h : i ≠ j) :
    (l.set i a).getD j d = l.getD j d := by
  induction l generalizing i j with
  | nil => simp
  | cons x xs ih =>
    cases i with
    | zero =>
      cases j with
      | zero => exact absurd rfl h
      | succ j => simp
    | succ i =>
      cases j with
      | zero => simp
      | succ j => simpa using ih i j (fun he => h (by omega))

/-- Count of a loop that increments on a predicate equals `countP` over indices. -/
theorem loopUp_count (p : ℕ → Bool) (n : ℕ) :
    loopUp (fun i acc => if p i then acc + 1 else acc) 0 n 0 =
      ((List.range n).countP p) := by
  induction n with
  | zero => simp [loopUp]
  | succ n ih =>
    rw [loopUp_succ_right, List.range_succ, List.countP_append, ih]
    simp only [Nat.zero_add, List.countP_cons, List.countP_nil]
    by_cases h : p n <;> simp [h]

theorem countP_range_getD (l : List α) (d : α) (p : α → Bool) :
    (List.range l.length).countP (fun i => p (l.getD i d)) = l.countP p := by
  induction l with
  | nil => simp [List.countP_nil]
  | cons x xs ih =>
    rw [show (x :: xs).length = xs.length + 1 from rfl, List.range_succ_eq_map,
      List.countP_cons, List.countP_map, List.countP_cons]
    have hcomp : (List.range xs.length).countP
        ((fun i => p ((x :: xs).getD i d)) ∘ Nat.succ) =
        (List.range xs.length).countP (fun i => p (xs.getD i d)) := by
      apply List.countP_congr
      intro i _
      simp [Function.comp]
    rw [hcomp, ih]
    simp

theorem wrap32_eq_of_range (z : ℤ) (h1 : -(2 ^ 31) ≤ z) (h2 : z < 2 ^ 31) :
    wrap32 z = z := by
  unfold wrap32
  rw [Int.emod_eq_of_lt (by omega) (by omega)]
  omega

theorem ratTrunc_intCast (z : ℤ) : ratTrunc (z : ℚ) = z := by
  unfold ratTrunc
  by_cases h : (z : ℚ) < 0 <;> simp [h]

/-- Prop-valued variant of `loopUp_count`. -/
theorem loopUp_count_prop (p : ℕ → Prop) [DecidablePred p] (n : ℕ) :
    loopUp (fun i acc => if p i then acc + 1 else acc) 0 n 0 =
      (List.range n).countP (fun i => decide (p i)) := by
  induction n with
  | zero => simp [loopUp]
  | succ n ih =>
    rw [loopUp_succ_right, List.range_succ, List.countP_append, ih]
    by_cases h : p n <;> simp [h]

/-! ## Claim theorems -/

/-- C5: for `0 ≤ ℓ ≤ nr`, `get_layer_bounds(ℓ)` returns the pair of
surfaces described by the spec (`layerBoundsSpec`): top is the constant
model z-minimum surface for `ℓ = 0` and interface `ℓ - 1`'s depth surface
otherwise; bottom is the constant model z-maximum surface for `ℓ = nr`
and interface `ℓ`'s depth surface otherwise; for `ℓ` outside `[0, nr]`
the call fails (the `assert` raises, modelled as `none`). -/
theorem c5_get_layer_bounds (m : VM) (ilyr : ℤ) :
    m.get_layer_bounds ilyr =
      if 0 ≤ ilyr ∧ ilyr ≤ (m.nr : ℤ) then some (layerBoundsSpec m ilyr) else none := by
  unfold VM.get_layer_bounds layerBoundsSpec
  by_cases h : 0 ≤ ilyr ∧ ilyr ≤ (m.nr : ℤ)
  · rw [if_neg (by omega : ¬(ilyr < 0 ∨ (m.nr : ℤ) < ilyr)), if_pos h]
    by_cases he : ilyr = (m.nr : ℤ)
    · simp [he]
    · have hlt : ¬((m.nr : ℤ) ≤ ilyr) := by omega
      simp [he, hlt]
  · rw [if_pos (by omega), if_neg h]

/-- C9, evaluation at the failing input: `mZero` has exactly one problem
(a zero slowness value), yet `verify(raise_error=True)` returns `False`
(`some false`) instead of raising — the source constructs `VMError(msg)`
without a `raise` statement. -/
theorem c9_verify_never_raises :
    mZero.verify true true = some false ∧
      mZero.check_grid.length + mZero.check_interfaces.length = 1 :=
  of_decide_eq_true (by with_unfolding_all rfl)

/-- C2 fails as stated: inserting a surface of maximum depth 5 into a
model whose only interface also has maximum depth 5 returns index 1,
while the number of existing interfaces with strictly smaller maximum
depth is 0 (the source counts with `>=`, not with a strict comparison). -/
theorem c2_counterexample :
    (mTie.insert_interface (.arr [[5]]) none none none).2 = 1 ∧
      mTie.rf.countP
        (fun s => decide (surfMax s < surfMax (expandArg mTie.nx mTie.ny (.arr [[5]])))) = 0 :=
  of_decide_eq_true (by with_unfolding_all rfl)

/-- C2 amended: `insert_interface` places the new interface at the index
equal to the number of existing interfaces whose maximum depth is less
than OR EQUAL TO the new surface's maximum depth, and returns that
index; the concrete scenario (5 into an empty model gives 0, then 15
gives 1 and depth 5 stays at index 0) is unchanged. -/
theorem c2_insertion_index (m : VM) (rf0 : ScalarOrArr)
    (jp0 ir0 ij0 : Option ScalarOrArr) :
    (m.insert_interface rf0 jp0 ir0 ij0).2 =
        m.rf.countP (fun s => decide (surfMax s ≤ surfMax (expandArg m.nx m.ny rf0))) ∧
      (m.insert_interface rf0 jp0 ir0 ij0).1.rf =
        m.rf.insertIdx (m.insert_interface rf0 jp0 ir0 ij0).2 (expandArg m.nx m.ny rf0) ∧
      (mScn.insert_interface (.scalar 5) none none none).2 = 0 ∧
      ((mScn.insert_interface (.scalar 5) none none none).1.insert_interface
        (.scalar 15) none none none).2 = 1 ∧
      ((mScn.insert_interface (.scalar 5) none none none).1.insert_interface
        (.scalar 15) none none none).1.rf.getD 0 [] = constSurf 2 1 5 := by
  refine ⟨?_, ?_, of_decide_eq_true (by with_unfolding_all rfl),
    of_decide_eq_true (by with_unfolding_all rfl),
    of_decide_eq_true (by with_unfolding_all rfl)⟩
  · show loopUp _ 0 m.nr 0 = _
    rw [loopUp_count_prop (fun i =>
      surfMax (m.rf.getD i []) ≤ surfMax (expandArg m.nx m.ny rf0))]
    exact countP_range_getD m.rf []
      (fun s => decide (surfMax s ≤ surfMax (expandArg m.nx m.ny rf0)))
  · by_cases h : m.nr = 0
    · have hrf : m.rf = [] := List.length_eq_zero.mp h
      simp [VM.insert_interface, h, hrf, loopUp]
    · simp [VM.insert_interface, h]

/-- C10: on a model with no interfaces, `insert_interface` stores the
(broadcast) jump surface into the jump-mask slot (`self.ij =
np.asarray([jp])` in the source), and the caller-supplied `ij` argument
has no effect on the result. -/
theorem c10_first_insert_ij (m : VM) (rf0 : ScalarOrArr)
    (jp0 ir0 ij0 ij0alt : Option ScalarOrArr) (h : m.nr = 0) :
    (m.insert_interface rf0 jp0 ir0 ij0).1.ij =
        [(jp0.map (expandArg m.nx m.ny)).getD (constSurf m.nx m.ny 0)] ∧
      m.insert_interface rf0 jp0 ir0 ij0alt = m.insert_interface rf0 jp0 ir0 ij0 := by
  have hloop : loopUp (fun i acc =>
      if surfMax (m.rf.getD i []) ≤ surfMax (expandArg m.nx m.ny rf0) then acc + 1
      else acc) 0 m.nr 0 = 0 := by
    rw [h]; rfl
  constructor
  · simp [VM.insert_interface, h, hloop, mapIdxFrom]
  · simp [VM.insert_interface, h, hloop, mapIdxFrom]

/-- C10 witness: a first insertion with jump 2 and caller-supplied
`ij = 7` stores the broadcast jump surface in `ij` and ignores the 7. -/
theorem c10_witness :
    (mScn.insert_interface (.scalar 5) (some (.scalar 2)) none
        (some (.scalar 7))).1.ij =
      [((some (ScalarOrArr.scalar 2)).map (expandArg mScn.nx mScn.ny)).getD
        (constSurf mScn.nx mScn.ny 0)] ∧
      mScn.insert_interface (.scalar 5) (some (.scalar 2)) none none =
        mScn.insert_interface (.scalar 5) (some (.scalar 2)) none
          (some (.scalar 7)) :=
  c10_first_insert_ij mScn (.scalar 5) (some (.scalar 2)) none
    (some (.scalar 7)) none (by decide)

/-- C7, evaluation at the failing input: on a well-formed model with
`nx = nz = 2`, filling the bottom layer with the default velocity list
`[None, None]` raises an IndexError (modelled as `none`): the second
`None` is resolved from `self.sl[ix, iy, min(iz1 + 1, self.nx)]`, an
index two samples below the layer and clamped against the x-dimension
size instead of the valid depth range. -/
theorem c7_none_resolution_index_error :
    mStretch.WF ∧
      mStretch.define_stretched_layer_velocities 1 [none, none]
        none none none none = none :=
  of_decide_eq_true (by with_unfolding_all rfl)

/-- C8, evaluation at the failing input: layer 0 of `mThin` has zero
thickness at its only node (top and bottom bounds are both the constant
0 surface), yet `define_stretched_layer_velocities` overwrites the
slowness sample inside the pinchout: the column changes from `[1, 1]`
to `[2, 1]` (the `len(z) == 0` guard never fires when the bounds
coincide, because the index span always contains one sample). -/
theorem c8_pinchout_column_modified :
    mThin.WF ∧
      mThin.get_layer_bounds 0 = some ([[0]], [[0]]) ∧
      (mThin.define_stretched_layer_velocities 0 [some (1/2)]
          none none none none).map VM.sl = some [[[2, 1]]] ∧
      mThin.sl = [[[1, 1]]] :=
  of_decide_eq_true (by with_unfolding_all rfl)

theorem getD_eq_getElem (l : List α) (k : ℕ) (d : α) (h : k < l.length) :
    l.getD k d = l[k] := by
  simp [List.getD_eq_getElem?_getD, List.getElem?_eq_getElem h]

theorem getD_mem (l : List α) (k : ℕ) (d : α) (h : k < l.length) :
    l.getD k d ∈ l := by
  rw [getD_eq_getElem l k d h]
  exact List.getElem_mem h

theorem getD_insertIdx_lt (l : List α) (i k : ℕ) (a d : α) (hi : i ≤ l.length)
    (hk : k < i) : (l.insertIdx i a).getD k d = l.getD k d := by
  have hkl : k < l.length := by omega
  have hkl2 : k < (l.insertIdx i a).length := by
    rw [List.length_insertIdx i l hi]; omega
  rw [getD_eq_getElem _ _ _ hkl2, getD_eq_getElem _ _ _ hkl]
  exact List.getElem_insertIdx_of_lt l a i k hk hkl hkl2

theorem getD_insertIdx_ge (l : List α) (i k : ℕ) (a d : α) (hik : i ≤ k)
    (hk : k < l.length) : (l.insertIdx i a).getD (k + 1) d = l.getD k d := by
  have hi : i ≤ l.length := by omega
  have hkl2 : k + 1 < (l.insertIdx i a).length := by
    rw [List.length_insertIdx i l hi]; omega
  rw [getD_eq_getElem _ _ _ hkl2, getD_eq_getElem _ _ _ hk]
  have hdecomp : k = i + (k - i) := by omega
  have h1 : i + (k - i) < l.length := by omega
  have h2 : i + (k - i) + 1 < (l.insertIdx i a).length := by
    rw [List.length_insertIdx i l hi]; omega
  have := List.getElem_insertIdx_add_succ l a i (k - i) h1 h2
  simp only [← hdecomp] at this
  exact this

/-- The insertion index of `insert_interface` never exceeds `nr`. -/
theorem insert_interface_idx_le (m : VM) (rf0 : ScalarOrArr)
    (jp0 ir0 ij0 : Option ScalarOrArr) :
    (m.insert_interface rf0 jp0 ir0 ij0).2 ≤ m.nr := by
  show loopUp _ 0 m.nr 0 ≤ m.nr
  rw [loopUp_count_prop (fun i =>
    surfMax (m.rf.getD i []) ≤ surfMax (expandArg m.nx m.ny rf0))]
  calc (List.range m.nr).countP _ ≤ (List.range m.nr).length := List.countP_le_length _
    _ = m.nr := List.length_range m.nr

/-- C4: a successful `insert_interface` increases `nr` by exactly one,
keeps every pre-existing depth surface and jump surface (deleting the
inserted row recovers the old `rf` and `jp` exactly), and changes the
pre-existing mask surfaces only by the renumbering increment: surfaces
before the insertion index are untouched, surfaces at or after it are
shifted one slot down and have their entries `≥ iref` incremented. -/
theorem c4_insert_frame (m : VM) (rf0 : ScalarOrArr)
    (jp0 ir0 ij0 : Option ScalarOrArr)
    (hjp : m.jp.length = m.nr) (hir : m.ir.length = m.nr)
    (hij : m.ij.length = m.nr) :
    (m.insert_interface rf0 jp0 ir0 ij0).1.nr = m.nr + 1 ∧
      (m.insert_interface rf0 jp0 ir0 ij0).1.rf.eraseIdx
        (m.insert_interface rf0 jp0 ir0 ij0).2 = m.rf ∧
      (m.insert_interface rf0 jp0 ir0 ij0).1.jp.eraseIdx
        (m.insert_interface rf0 jp0 ir0 ij0).2 = m.jp ∧
      ∀ k, k < m.nr →
        (k < (m.insert_interface rf0 jp0 ir0 ij0).2 →
          (m.insert_interface rf0 jp0 ir0 ij0).1.ir.getD k [] = m.ir.getD k [] ∧
          (m.insert_interface rf0 jp0 ir0 ij0).1.ij.getD k [] = m.ij.getD k []) ∧
        ((m.insert_interface rf0 jp0 ir0 ij0).2 ≤ k →
          (m.insert_interface rf0 jp0 ir0 ij0).1.ir.getD (k + 1) [] =
            bumpSurf (m.insert_interface rf0 jp0 ir0 ij0).2 (m.ir.getD k []) ∧
          (m.insert_interface rf0 jp0 ir0 ij0).1.ij.getD (k + 1) [] =
            bumpSurf (m.insert_interface rf0 jp0 ir0 ij0).2 (m.ij.getD k [])) := by
  have hle := insert_interface_idx_le m rf0 jp0 ir0 ij0
  by_cases h : m.nr = 0
  · have hrf : m.rf = [] := List.length_eq_zero.mp h
    have hjp0 : m.jp = [] := List.length_eq_zero.mp (by omega)
    have hir0 : m.ir = [] := List.length_eq_zero.mp (by omega)
    have hij0 : m.ij = [] := List.length_eq_zero.mp (by omega)
    refine ⟨?_, ?_, ?_, ?_⟩
    · simp [VM.insert_interface, VM.nr, hrf, loopUp, h]
    · simp [VM.insert_interface, hrf, loopUp, h]
    · simp [VM.insert_interface, hrf, hjp0, loopUp, h]
    · intro k hk
      omega
  · have hL : ¬(m.rf.length = 0) := h
    simp only [VM.insert_interface, VM.nr, if_neg hL]
    set rfA := expandArg m.nx m.ny rf0 with hrfA
    set iref := loopUp
      (fun i acc => if surfMax (m.rf.getD i []) ≤ surfMax rfA then acc + 1 else acc)
      0 m.rf.length 0 with hirefdef
    have hle2 : iref ≤ m.rf.length := by
      rw [hirefdef, loopUp_count_prop
        (fun i => surfMax (m.rf.getD i []) ≤ surfMax rfA)]
      calc (List.range m.rf.length).countP _ ≤ (List.range m.rf.length).length :=
          List.countP_le_length _
        _ = m.rf.length := List.length_range m.rf.length
    have hirl : iref ≤ m.ir.length := by
      have : m.ir.length = m.rf.length := hir
      omega
    have hijl : iref ≤ m.ij.length := by
      have : m.ij.length = m.rf.length := hij
      omega
    refine ⟨List.length_insertIdx _ _ hle2, List.eraseIdx_insertIdx _ _,
      List.eraseIdx_insertIdx _ _, ?_⟩
    intro k hk
    have hkrf : k < m.rf.length := hk
    have hirlen : m.ir.length = m.rf.length := hir
    have hijlen : m.ij.length = m.rf.length := hij
    constructor
    · intro hki
      have hki2 : k < iref := hki
      constructor
      · rw [mapIdxFrom_getD]
        rw [if_pos (by rw [List.length_insertIdx _ _ hirl]; omega)]
        rw [if_neg (by omega)]
        exact getD_insertIdx_lt m.ir iref k _ [] hirl hki2
      · rw [mapIdxFrom_getD]
        rw [if_pos (by rw [List.length_insertIdx _ _ hijl]; omega)]
        rw [if_neg (by omega)]
        exact getD_insertIdx_lt m.ij iref k _ [] hijl hki2
    · intro hik
      have hik2 : iref ≤ k := hik
      constructor
      · rw [mapIdxFrom_getD]
        rw [if_pos (by rw [List.length_insertIdx _ _ hirl]; omega)]
        rw [if_pos (by omega)]
        congr 1
        exact getD_insertIdx_ge m.ir iref k _ [] hik2 (by omega)
      · rw [mapIdxFrom_getD]
        rw [if_pos (by rw [List.length_insertIdx _ _ hijl]; omega)]
        rw [if_pos (by omega)]
        congr 1
        exact getD_insertIdx_ge m.ij iref k _ [] hik2 (by omega)

/-- C4 witness: inserting depth 3 above the depth-5 interface of `mTie`
adds one interface and bumps the surviving mask surface. -/
theorem c4_insert_frame_witness :
    (mTie.insert_interface (.scalar 3) none none none).1.nr = mTie.nr + 1 ∧
      (mTie.insert_interface (.scalar 3) none none none).1.ir.getD 1 [] =
        bumpSurf (mTie.insert_interface (.scalar 3) none none none).2
          (mTie.ir.getD 0 []) :=
  ⟨(c4_insert_frame mTie (.scalar 3) none none none rfl rfl rfl).1,
    (((c4_insert_frame mTie (.scalar 3) none none none rfl rfl rfl).2.2.2 0
        (by decide)).2 (of_decide_eq_true (by with_unfolding_all rfl))).1⟩

theorem mem_zipWith_imp {f : α → β → γ} {c : γ} :
    ∀ {l1 : List α} {l2 : List β}, c ∈ List.zipWith f l1 l2 →
      ∃ a b, a ∈ l1 ∧ b ∈ l2 ∧ c = f a b := by
  intro l1
  induction l1 with
  | nil => intro l2 h; simp at h
  | cons x xs ih =>
    intro l2 h
    cases l2 with
    | nil => simp at h
    | cons y ys =>
      rw [List.zipWith_cons_cons, List.mem_cons] at h
      rcases h with h | h
      · exact ⟨x, y, by simp, by simp, h⟩
      · obtain ⟨a, b, ha, hb, he⟩ := ih h
        exact ⟨a, b, by simp [ha], by simp [hb], he⟩

theorem shape2_row {nx ny : ℕ} {s : Surf} (h : Shape2 nx ny s) {ix : ℕ}
    (hix : ix < nx) : (s.getD ix []).length = ny := by
  have hxl : ix < s.length := by rw [h.1]; exact hix
  exact h.2 _ (getD_mem s ix [] hxl)

theorem zip2_shape {nx ny : ℕ} (f : ℚ → ℚ → ℚ) {a b : Surf}
    (ha : Shape2 nx ny a) (hb : Shape2 nx ny b) : Shape2 nx ny (zip2 f a b) := by
  constructor
  · simp [zip2, List.length_zipWith, ha.1, hb.1]
  · intro r hr
    obtain ⟨ra, rb, hra, hrb, he⟩ := mem_zipWith_imp hr
    rw [he]
    simp [List.length_zipWith, ha.2 ra hra, hb.2 rb hrb]

theorem getS_zip2 {nx ny : ℕ} (f : ℚ → ℚ → ℚ) {a b : Surf}
    (ha : Shape2 nx ny a) (hb : Shape2 nx ny b) {ix iy : ℕ}
    (hix : ix < nx) (hiy : iy < ny) :
    getS (zip2 f a b) ix iy = f (getS a ix iy) (getS b ix iy) := by
  unfold getS zip2
  rw [zipWith_getD (List.zipWith f) a b ix [] [] [] (by rw [ha.1]; exact hix)
    (by rw [hb.1]; exact hix)]
  exact zipWith_getD f _ _ iy 0 0 0 (by rw [shape2_row ha hix]; exact hiy)
    (by rw [shape2_row hb hix]; exact hiy)

theorem allShape2_set {nx ny : ℕ} {l : List Surf} (h : AllShape2 nx ny l)
    {s : Surf} (hs : Shape2 nx ny s) (i : ℕ) : AllShape2 nx ny (l.set i s) := by
  intro t ht
  rcases List.mem_or_eq_of_mem_set ht with ht2 | ht2
  · exact h t ht2
  · rw [ht2]; exact hs

theorem sortStep_eq (i : ℕ) (l : List Surf) :
    sortStep i l = (l.set (i - 1) (zip2 min (l.getD (i - 1) []) (l.getD i []))).set i
      (zip2 max (l.getD (i - 1) []) (l.getD i [])) := rfl

theorem sepStep_eq (d : ℚ) (i : ℕ) (l : List Surf) :
    sepStep d i l = l.set i (zip2 (fun x y => if y - x < d then y + (d - (y - x)) else y)
      (l.getD (i - 1) []) (l.getD i [])) := rfl

/-- Shape and length preservation of the ordering pass of `fix_pinchouts`. -/
theorem sortPass_shape {nx ny : ℕ} (L : List Surf) (hL : AllShape2 nx ny L) :
    ∀ k, k < L.length →
      (loopUp sortStep 1 k L).length = L.length ∧
        AllShape2 nx ny (loopUp sortStep 1 k L) := by
  intro k
  induction k with
  | zero => exact fun _ => ⟨rfl, hL⟩
  | succ k ih =>
    intro hk1
    obtain ⟨hlen, hsh⟩ := ih (by omega)
    rw [loopUp_succ_right]
    have h1k : 1 + k = k + 1 := by omega
    rw [h1k]
    set r := loopUp sortStep 1 k L with hr
    rw [sortStep_eq]
    have hk1r : k + 1 < r.length := by omega
    have hkr : k < r.length := by omega
    have hka : Shape2 nx ny (r.getD (k + 1 - 1) []) := hsh _ (getD_mem _ _ _ (by omega))
    have hkb : Shape2 nx ny (r.getD (k + 1) []) := hsh _ (getD_mem _ _ _ hk1r)
    constructor
    · simp [List.length_set, hlen]
    · exact allShape2_set (allShape2_set hsh (zip2_shape min hka hkb) _)
        (zip2_shape max hka hkb) _

/-- Invariant of the separation pass of `fix_pinchouts`: after the first
`k` iterations, lengths and shapes are preserved, surfaces after index
`k` are untouched, and every processed adjacent pair is at least `d`
apart pointwise. -/
theorem sepPass_invariant (d : ℚ) {nx ny : ℕ} (L : List Surf)
    (hL : AllShape2 nx ny L) :
    ∀ k, k < L.length →
      (loopUp (sepStep d) 1 k L).length = L.length ∧
        AllShape2 nx ny (loopUp (sepStep d) 1 k L) ∧
        (∀ j, k < j → (loopUp (sepStep d) 1 k L).getD j [] = L.getD j []) ∧
        (∀ i, 1 ≤ i → i ≤ k → ∀ ix iy, ix < nx → iy < ny →
          d ≤ getS ((loopUp (sepStep d) 1 k L).getD i []) ix iy -
            getS ((loopUp (sepStep d) 1 k L).getD (i - 1) []) ix iy) := by
  intro k
  induction k with
  | zero =>
    exact fun _ => ⟨rfl, hL, fun j _ => rfl, fun i h1 h0 => absurd h0 (by omega)⟩
  | succ k ih =>
    intro hk1
    obtain ⟨hlen, hsh, huntouched, hsep⟩ := ih (by omega)
    rw [loopUp_succ_right]
    have h1k : 1 + k = k + 1 := by omega
    rw [h1k]
    set r := loopUp (sepStep d) 1 k L with hr
    rw [sepStep_eq]
    have hk1r : k + 1 < r.length := by omega
    have hkr : k < r.length := by omega
    have hka : Shape2 nx ny (r.getD (k + 1 - 1) []) := hsh _ (getD_mem _ _ _ (by omega))
    have hkb : Shape2 nx ny (r.getD (k + 1) []) := hsh _ (getD_mem _ _ _ hk1r)
    have hzip : Shape2 nx ny (zip2
        (fun x y => if y - x < d then y + (d - (y - x)) else y)
        (r.getD (k + 1 - 1) []) (r.getD (k + 1) [])) := zip2_shape _ hka hkb
    refine ⟨by simp [List.length_set, hlen], allShape2_set hsh hzip _, ?_, ?_⟩
    · intro j hj
      rw [getD_set_ne _ _ _ _ _ (by omega)]
      exact huntouched j (by omega)
    · intro i h1 hik ix iy hix hiy
      by_cases hieq : i = k + 1
      · subst hieq
        rw [getD_set_self _ _ _ _ hk1r]
        rw [getD_set_ne _ _ _ _ _ (by omega)]
        rw [getS_zip2 _ hka hkb hix hiy]
        by_cases hxy : getS (r.getD (k + 1) []) ix iy -
            getS (r.getD (k + 1 - 1) []) ix iy < d
        · rw [if_pos hxy]
          linarith
        · rw [if_neg hxy]
          linarith
      · have hi : i ≤ k := by omega
        rw [getD_set_ne _ _ _ _ _ (by omega), getD_set_ne _ _ _ _ _ (by omega)]
        exact hsep i h1 hi ix iy hix hiy

/-- C6: after `fix_pinchouts(min_dz)` (with `0 ≤ min_dz`, the default
being the vertical grid spacing), every adjacent interface pair of a
shape-uniform stack is in depth order with pointwise separation at least
`min_dz`: `rf[i] - rf[i-1] ≥ min_dz` at every horizontal node. -/
theorem c6_fix_pinchouts (m : VM) (dopt : Option ℚ) (i ix iy : ℕ)
    (hsh : AllShape2 m.nx m.ny m.rf) (hd : 0 ≤ dopt.getD m.dz)
    (h1 : 1 ≤ i) (h2 : i < m.nr) (hix : ix < m.nx) (hiy : iy < m.ny) :
    dopt.getD m.dz ≤ getS ((m.fix_pinchouts dopt).rf.getD i []) ix iy -
        getS ((m.fix_pinchouts dopt).rf.getD (i - 1) []) ix iy ∧
      getS ((m.fix_pinchouts dopt).rf.getD (i - 1) []) ix iy ≤
        getS ((m.fix_pinchouts dopt).rf.getD i []) ix iy := by
  have hnr : m.nr = m.rf.length := rfl
  have hk : m.nr - 1 < m.rf.length := by omega
  obtain ⟨hlen1, hsh1⟩ := sortPass_shape m.rf hsh (m.nr - 1) hk
  have hk2 : m.nr - 1 < (loopUp sortStep 1 (m.nr - 1) m.rf).length := by omega
  obtain ⟨_, _, _, hsep⟩ := sepPass_invariant (dopt.getD m.dz) _ hsh1 (m.nr - 1) hk2
  have hres : (m.fix_pinchouts dopt).rf =
      loopUp (sepStep (dopt.getD m.dz)) 1 (m.nr - 1)
        (loopUp sortStep 1 (m.nr - 1) m.rf) := rfl
  rw [hres]
  have hmain := hsep i h1 (by omega) ix iy hix hiy
  exact ⟨hmain, by linarith⟩

/-- C6 witness: on `mPinch` (interfaces at depths 3, 1, 3/2 with unit
spacing), the default `fix_pinchouts` leaves pair (0, 1) ordered and at
least `dz = 1` apart at the only node. -/
theorem c6_fix_pinchouts_witness :
    (1 : ℚ) ≤ getS ((mPinch.fix_pinchouts none).rf.getD 1 []) 0 0 -
        getS ((mPinch.fix_pinchouts none).rf.getD 0 []) 0 0 ∧
      getS ((mPinch.fix_pinchouts none).rf.getD 0 []) 0 0 ≤
        getS ((mPinch.fix_pinchouts none).rf.getD 1 []) 0 0 :=
  c6_fix_pinchouts mPinch none 1 0 0
    (of_decide_eq_true (by with_unfolding_all rfl))
    (of_decide_eq_true (by with_unfolding_all rfl))
    (by decide) (by decide) (by decide) (by decide)

/-! ## Lemmas for the jump apply/remove round trip (C3) -/

/-- Layer bounds of layer `r + 1` for a valid interface index `r`: the
top surface is interface `r`'s depth surface. -/
theorem glb_succ (m : VM) (r : ℕ) (hr : r < m.nr) :
    m.get_layer_bounds ((r : ℤ) + 1) =
      some (m.rf.getD r [],
        if (m.nr : ℤ) ≤ (r : ℤ) + 1 then constSurf m.nx m.ny m.r2z
        else m.rf.getD ((r : ℤ) + 1).toNat []) := by
  have h0 : ¬((r : ℤ) + 1 < 0 ∨ (m.nr : ℤ) < (r : ℤ) + 1) := by omega
  have h1 : ¬((r : ℤ) + 1 = 0) := by omega
  have h2 : ((r : ℤ) + 1 - 1).toNat = r := by omega
  unfold VM.get_layer_bounds
  rw [if_neg h0, if_neg h1, h2]

theorem apply_jumps_cons (m : VM) (r : ℕ) (rest : List ℕ) (rm : Bool) :
    m.apply_jumps (some (r :: rest)) rm =
      (m.get_layer_bounds ((r : ℤ) + 1)).bind
        (fun zb => (addJump m zb.1 r rm).apply_jumps (some rest) rm) := by
  simp only [VM.apply_jumps, Option.getD_some]
  rw [List.foldlM_cons]
  cases m.get_layer_bounds ((r : ℤ) + 1) <;> rfl

theorem foldl_addJump_rf (sel : List ℕ) (zf : ℕ → Surf) (rm : Bool) (m : VM) :
    (sel.foldl (fun a x => addJump a (zf x) x rm) m).rf = m.rf := by
  induction sel generalizing m with
  | nil => rfl
  | cons x rest ih =>
    rw [List.foldl_cons, ih]
    rfl

/-- On a valid selection `apply_jumps` succeeds and equals the pure fold
of `addJump` with the top surfaces taken from the (unchanged) `rf`. -/
theorem apply_jumps_eq (m : VM) (sel : List ℕ) (rm : Bool)
    (h : ∀ r ∈ sel, r < m.nr) :
    m.apply_jumps (some sel) rm =
      some (sel.foldl (fun a r => addJump a (m.rf.getD r []) r rm) m) := by
  induction sel generalizing m with
  | nil => rfl
  | cons r rest ih =>
    have hr : r < m.nr := h r (List.mem_cons_self r rest)
    rw [apply_jumps_cons, glb_succ m r hr, Option.some_bind]
    rw [ih (addJump m (m.rf.getD r []) r rm)
      (fun x hx => h x (List.mem_cons_of_mem r hx))]
    rfl

/-- Removing a jump directly after applying it restores the model. -/
theorem addJump_cancel (m : VM) (z : Surf) (r : ℕ) :
    addJump (addJump m z r false) z r true = m := by
  have hsl : (addJump (addJump m z r false) z r true).sl = m.sl := by
    simp only [addJump, VM.z2i]
    rw [mapIdxFrom_fuse]
    calc mapIdxFrom _ 0 m.sl = mapIdxFrom (fun _ x => x) 0 m.sl := by
          apply mapIdxFrom_congr
          intro ix col
          rw [mapIdxFrom_fuse]
          calc mapIdxFrom _ 0 col = mapIdxFrom (fun _ x => x) 0 col := by
                apply mapIdxFrom_congr
                intro iy zs
                rw [mapIdxFrom_fuse]
                calc mapIdxFrom _ 0 zs = mapIdxFrom (fun _ x => x) 0 zs := by
                      apply mapIdxFrom_congr
                      intro iz v
                      by_cases hc : coord2index (getS z ix iy) m.z0 m.dz m.nz ≤ iz <;>
                        simp [hc]
                  _ = zs := mapIdxFrom_id 0 zs
            _ = col := mapIdxFrom_id 0 col
      _ = m.sl := mapIdxFrom_id 0 m.sl
  exact VM.ext rfl rfl rfl rfl rfl rfl rfl rfl rfl hsl rfl rfl rfl rfl

/-- Two `addJump` updates commute. -/
theorem addJump_comm (m : VM) (z z' : Surf) (r r' : ℕ) (b b' : Bool) :
    addJump (addJump m z r b) z' r' b' = addJump (addJump m z' r' b') z r b := by
  have hsl : (addJump (addJump m z r b) z' r' b').sl =
      (addJump (addJump m z' r' b') z r b).sl := by
    simp only [addJump, VM.z2i]
    rw [mapIdxFrom_fuse, mapIdxFrom_fuse]
    apply mapIdxFrom_congr
    intro ix col
    rw [mapIdxFrom_fuse, mapIdxFrom_fuse]
    apply mapIdxFrom_congr
    intro iy zs
    rw [mapIdxFrom_fuse, mapIdxFrom_fuse]
    apply mapIdxFrom_congr
    intro iz v
    by_cases h1 : coord2index (getS z ix iy) m.z0 m.dz m.nz ≤ iz <;>
      by_cases h2 : coord2index (getS z' ix iy) m.z0 m.dz m.nz ≤ iz <;>
        cases b <;> cases b' <;>
          simp [h1, h2] <;>
          ring
  exact VM.ext rfl rfl rfl rfl rfl rfl rfl rfl rfl hsl rfl rfl rfl rfl

theorem addJump_foldl_swap (sel : List ℕ) (zf : ℕ → Surf) (rm : Bool)
    (m : VM) (z : Surf) (r : ℕ) (b : Bool) :
    addJump (sel.foldl (fun a x => addJump a (zf x) x rm) m) z r b =
      sel.foldl (fun a x => addJump a (zf x) x rm) (addJump m z r b) := by
  induction sel generalizing m with
  | nil => rfl
  | cons x rest ih =>
    rw [List.foldl_cons, List.foldl_cons, ih, addJump_comm]

theorem fold_cancel (sel : List ℕ) (zf : ℕ → Surf) (m : VM) :
    sel.foldl (fun a x => addJump a (zf x) x true)
      (sel.foldl (fun a x => addJump a (zf x) x false) m) = m := by
  induction sel generalizing m with
  | nil => rfl
  | cons x rest ih =>
    rw [List.foldl_cons, List.foldl_cons, addJump_foldl_swap, addJump_cancel, ih]

/-- C3: with `rf` and `jp` unchanged (no `addJump` touches them),
`apply_jumps` followed by `remove_jumps` over the same valid interface
selection restores every grid slowness value — indeed the whole model —
exactly, in exact arithmetic. -/
theorem c3_apply_remove_jumps (m : VM) (sel : List ℕ)
    (h : ∀ r ∈ sel, r < m.nr) :
    (m.apply_jumps (some sel) false).bind
      (fun m1 => m1.remove_jumps (some sel)) = some m := by
  rw [apply_jumps_eq m sel false h, Option.some_bind]
  unfold VM.remove_jumps
  have hrf : (sel.foldl (fun a r => addJump a (m.rf.getD r []) r false) m).rf =
      m.rf := foldl_addJump_rf sel (fun r => m.rf.getD r []) false m
  have hnr : (sel.foldl (fun a r => addJump a (m.rf.getD r []) r false) m).nr =
      m.nr := congrArg List.length hrf
  rw [apply_jumps_eq _ sel true (fun r hr => by rw [hnr]; exact h r hr)]
  rw [hrf]
  exact congrArg some (fold_cancel sel (fun r => m.rf.getD r []) m)

/-- C3 witness: one interface with jump 1/4 on a three-sample column;
applying and removing the jump returns the model unchanged. -/
theorem c3_apply_remove_jumps_witness :
    (mJmp.apply_jumps (some [0]) false).bind
      (fun m1 => m1.remove_jumps (some [0])) = some mJmp :=
  c3_apply_remove_jumps mJmp [0] (by decide)

/-! ## Lemmas for the serializer round trip (C1) -/

theorem takeW_exact (p : Word → Option β) (enc : β → Word)
    (hpe : ∀ b, p (enc b) = some b) (bs : List β) (rest : List Word) :
    takeW p bs.length (bs.map enc ++ rest) = some (bs, rest) := by
  induction bs with
  | nil => rfl
  | cons b bs ih =>
    show takeW p (bs.length + 1) (enc b :: (bs.map enc ++ rest)) = _
    simp [takeW, hpe b, ih]

theorem unpackInts_exact (n : ℕ) (is : List ℤ) (rest : List Word)
    (h : is.length = n) :
    unpackInts n (is.map Word.i ++ rest) = some (is, rest) := by
  subst h
  exact takeW_exact wordInt Word.i (fun b => rfl) is rest

theorem unpackFlts_exact (n : ℕ) (qs : List ℚ) (rest : List Word)
    (h : qs.length = n) :
    unpackFlts n (qs.map Word.f ++ rest) = some (qs, rest) := by
  subst h
  exact takeW_exact wordFlt Word.f (fun b => rfl) qs rest

theorem flatten_length_uniform (l : List (List α)) (k : ℕ)
    (h : ∀ x ∈ l, x.length = k) : l.flatten.length = l.length * k := by
  induction l with
  | nil => simp
  | cons x xs ih =>
    rw [List.flatten_cons, List.length_append, h x (List.mem_cons_self x xs),
      ih (fun y hy => h y (List.mem_cons_of_mem x hy)), List.length_cons]
    ring

theorem flat3_length {a b c : ℕ} {v : List (List (List ℚ))}
    (h : Shape3 a b c v) : (flat3 v).length = a * b * c := by
  unfold flat3
  rw [flatten_length_uniform (v.map List.flatten) (b * c) ?hrow]
  · rw [List.length_map, h.1]
    ring
  · intro x hx
    obtain ⟨s, hs, rfl⟩ := List.mem_map.mp hx
    rw [flatten_length_uniform s c (fun r hr => (h.2 s hs).2 r hr), (h.2 s hs).1]

theorem reshape3_flat3 {a b c : ℕ} (hb : 0 < b) (hc : 0 < c)
    {v : List (List (List ℚ))} (h : Shape3 a b c v) :
    reshape3 a b c (flat3 v) = v := by
  unfold reshape3 flat3
  rw [chunk_flatten (b * c) (Nat.mul_pos hb hc) (v.map List.flatten) ?hlen]
  · rw [List.map_map]
    calc v.map (chunk c ∘ List.flatten) = v.map (fun s => s) := by
          apply List.map_congr_left
          intro s hs
          exact chunk_flatten c hc s (fun r hr => (h.2 s hs).2 r hr)
      _ = v := List.map_id' v
  · intro x hx
    obtain ⟨s, hs, rfl⟩ := List.mem_map.mp hx
    rw [flatten_length_uniform s c (fun r hr => (h.2 s hs).2 r hr), (h.2 s hs).1]

theorem flat3_map (f : ℚ → ℚ) (v : List (List (List ℚ))) :
    (flat3 v).map f = flat3 (map3 f v) := by
  unfold flat3 map3
  rw [List.map_flatten, List.map_map, List.map_map]
  congr 1
  apply List.map_congr_left
  intro s _
  show (s.flatten).map f = ((s.map (List.map f)).flatten)
  rw [List.map_flatten]

theorem map3_shape {a b c : ℕ} (f : ℚ → ℚ) {v : List (List (List ℚ))}
    (h : Shape3 a b c v) : Shape3 a b c (map3 f v) := by
  refine ⟨by simp [map3, h.1], ?_⟩
  intro p hp
  obtain ⟨s, hs, rfl⟩ := List.mem_map.mp hp
  refine ⟨by simp [(h.2 s hs).1], ?_⟩
  intro r hr
  obtain ⟨t, ht, rfl⟩ := List.mem_map.mp hr
  simp [(h.2 s hs).2 t ht]

theorem map3_map3 (f g : ℚ → ℚ) (v : List (List (List ℚ))) :
    map3 f (map3 g v) = map3 (fun q => f (g q)) v := by
  simp [map3, List.map_map, Function.comp]

theorem map3_congr_id {f : ℚ → ℚ} {v : List (List (List ℚ))}
    (h : ∀ s ∈ v, ∀ r ∈ s, ∀ q ∈ r, f q = q) : map3 f v = v := by
  unfold map3
  calc v.map (List.map (List.map f)) = v.map (fun s => s) := by
        apply List.map_congr_left
        intro s hs
        calc s.map (List.map f) = s.map (fun r => r) := by
              apply List.map_congr_left
              intro r hr
              calc r.map f = r.map (fun q => q) := by
                    apply List.map_congr_left
                    intro q hq
                    exact h s hs r hr q hq
                _ = r := List.map_id' r
          _ = s := List.map_id' s
    _ = v := List.map_id' v

theorem mask_entry_roundtrip (q : ℚ) (hden : q.den = 1)
    (h1 : -(2 ^ 31) ≤ q.num + 1) (h2 : q.num + 1 < 2 ^ 31) :
    ((toInt32 (q + 1) : ℤ) : ℚ) - 1 = q := by
  have hq : (q.num : ℚ) = q := Rat.coe_int_num_of_den_eq_one hden
  have hsum : q + 1 = ((q.num + 1 : ℤ) : ℚ) := by push_cast [hq]; ring
  rw [hsum]
  unfold toInt32
  rw [ratTrunc_intCast, wrap32_eq_of_range _ h1 h2]
  push_cast [hq]
  ring


/-- Disk round trip of a well-shaped mask array: add one, truncate to
`int32`, read back and subtract one. -/
theorem mask_array_roundtrip {nr nx ny : ℕ} (hx : 0 < nx) (hy : 0 < ny)
    {v : List Surf} (hsh : Shape3 nr nx ny v) (hm : MaskOK v) :
    map3 (fun q => q - 1)
      (reshape3 nr nx ny
        (((flat3 v).map (fun q => toInt32 (q + 1))).map (fun (z : ℤ) => (z : ℚ)))) = v := by
  rw [List.map_map]
  have hcomp : ((fun (z : ℤ) => (z : ℚ)) ∘ (fun q => toInt32 (q + 1))) =
      (fun (q : ℚ) => ((toInt32 (q + 1) : ℤ) : ℚ)) := rfl
  rw [hcomp]
  rw [flat3_map (fun (q : ℚ) => ((toInt32 (q + 1) : ℤ) : ℚ)) v]
  rw [reshape3_flat3 hx hy (map3_shape _ hsh)]
  rw [map3_map3]
  exact map3_congr_id (fun s hs r hr q hq => by
    obtain ⟨hden, h1, h2⟩ := hm s hs r hr q hq
    exact mask_entry_roundtrip q hden h1 h2)

/-- C1: writing a well-formed model in the native VM binary format and
reading the stream back reproduces the model at 32-bit float precision:
the grid, `rf` and `jp` through `f32`, the masks `ir` and `ij` exactly
(the 1-based on-disk convention cancels), for any `nr ≥ 0`. -/
theorem c1_write_read_roundtrip (m : VM) (hWF : m.WF)
    (hnx : 1 ≤ m.nx) (hny : 1 ≤ m.ny) (hnz : 1 ≤ m.nz)
    (hbx : (m.nx : ℤ) < 2 ^ 31) (hby : (m.ny : ℤ) < 2 ^ 31)
    (hbz : (m.nz : ℤ) < 2 ^ 31) (hbr : (m.nr : ℤ) < 2 ^ 31)
    (hmir : MaskOK m.ir) (hmij : MaskOK m.ij) :
    read_vm m.write_vm = some (f32Model m) := by
  obtain ⟨hsl, hrf, hjp, hir, hij⟩ := hWF
  have hwx : wrap32 (m.nx : ℤ) = (m.nx : ℤ) := wrap32_eq_of_range _ (by omega) hbx
  have hwy : wrap32 (m.ny : ℤ) = (m.ny : ℤ) := wrap32_eq_of_range _ (by omega) hby
  have hwz : wrap32 (m.nz : ℤ) = (m.nz : ℤ) := wrap32_eq_of_range _ (by omega) hbz
  have hwr : wrap32 (m.nr : ℤ) = (m.nr : ℤ) := wrap32_eq_of_range _ (by omega) hbr
  have hz0 : ¬((m.nz : ℤ) = 0) := by omega
  have htx : ((m.nx : ℤ)).toNat = m.nx := by omega
  have hty : ((m.ny : ℤ)).toNat = m.ny := by omega
  have htz : ((m.nz : ℤ)).toNat = m.nz := by omega
  have htr : ((m.nr : ℤ)).toNat = m.nr := by omega
  have hmapf : ∀ (l : List ℚ), l.map (fun q => Word.f (f32 q)) = (l.map f32).map Word.f :=
    fun l => (List.map_map Word.f f32 l).symm
  have hmapi : ∀ (l : List ℚ), l.map (fun q => Word.i (toInt32 (q + 1))) =
      (l.map (fun q => toInt32 (q + 1))).map Word.i :=
    fun l => (List.map_map Word.i (fun q => toInt32 (q + 1)) l).symm
  have hTF : ∀ (n : ℕ) (qs : List ℚ) (rest : List Word), qs.length = n →
      takeW wordFlt n (qs.map Word.f ++ rest) = some (qs, rest) := by
    intro n qs rest h
    subst h
    exact takeW_exact wordFlt Word.f (fun b => rfl) qs rest
  have hTI : ∀ (n : ℕ) (is : List ℤ) (rest : List Word), is.length = n →
      takeW wordInt n (is.map Word.i ++ rest) = some (is, rest) := by
    intro n is rest h
    subst h
    exact takeW_exact wordInt Word.i (fun b => rfl) is rest
  have hlsl : ((flat3 m.sl).map f32).length = m.nx * m.ny * m.nz := by
    rw [List.length_map, flat3_length hsl]
  unfold read_vm VM.write_vm
  simp only [pack4byteInteger, pack4byteIEEE, List.append_assoc, List.cons_append,
    List.nil_append, hwx, hwy, hwz, hwr]
  simp only [unpackInts, takeW, wordInt, Option.some_bind]
  simp only [List.map_cons, List.map_nil, List.cons_append, List.nil_append]
  simp only [unpackFlts, takeW, wordFlt, bind, Option.bind_eq_bind, Option.some_bind]
  simp only [if_neg hz0, htx, hty, htz, htr]
  rw [hmapf (flat3 m.sl)]
  by_cases hnr0 : m.nr = 0
  · have hrfe : m.rf = [] := List.length_eq_zero.mp hnr0
    have hjpe : m.jp = [] := List.length_eq_zero.mp (by rw [hjp.1]; exact hnr0)
    have hire : m.ir = [] := List.length_eq_zero.mp (by rw [hir.1]; exact hnr0)
    have hije : m.ij = [] := List.length_eq_zero.mp (by rw [hij.1]; exact hnr0)
    rw [if_neg (by omega : ¬(m.nr > 0))]
    rw [hTF _ _ _ hlsl, Option.some_bind]
    rw [hnr0]
    simp only [Nat.mul_zero, takeW, Option.some_bind]
    rw [flat3_map, reshape3_flat3 (by omega) (by omega) (map3_shape f32 hsl)]
    simp [f32Model, reshape3, chunk_nil, map3, hrfe, hjpe, hire, hije, hnr0]
  · have hlrf : ((flat3 m.rf).map f32).length = m.nx * m.ny * m.nr := by
      rw [List.length_map, flat3_length hrf]; ring
    have hljp : ((flat3 m.jp).map f32).length = m.nx * m.ny * m.nr := by
      rw [List.length_map, flat3_length hjp]; ring
    have hlir : ((flat3 m.ir).map (fun q => toInt32 (q + 1))).length = m.nx * m.ny * m.nr := by
      rw [List.length_map, flat3_length hir]; ring
    have hlij : ((flat3 m.ij).map (fun q => toInt32 (q + 1))).length = m.nx * m.ny * m.nr := by
      rw [List.length_map, flat3_length hij]; ring
    rw [if_pos (by omega : m.nr > 0)]
    rw [hmapf (flat3 m.rf), hmapf (flat3 m.jp), hmapi (flat3 m.ir), hmapi (flat3 m.ij)]
    rw [hTF _ _ _ hlsl, Option.some_bind]
    rw [hTF _ _ _ hlrf, Option.some_bind]
    rw [hTF _ _ _ hljp, Option.some_bind]
    rw [hTI _ _ _ hlir, Option.some_bind]
    have hTIend : ∀ (n : ℕ) (is : List ℤ), is.length = n →
        takeW wordInt n (is.map Word.i) = some (is, []) := by
      intro n is h
      rw [show is.map Word.i = is.map Word.i ++ [] from (List.append_nil _).symm]
      exact hTI n is [] h
    rw [hTIend _ _ hlij, Option.some_bind]
    rw [flat3_map, reshape3_flat3 (by omega) (by omega) (map3_shape f32 hsl)]
    rw [flat3_map, reshape3_flat3 (by omega) (by omega) (map3_shape f32 hrf)]
    rw [flat3_map, reshape3_flat3 (by omega) (by omega) (map3_shape f32 hjp)]
    rw [mask_array_roundtrip (by omega) (by omega) hir hmir]
    rw [mask_array_roundtrip (by omega) (by omega) hij hmij]
    rfl

/-- C1 witness: the round trip evaluated on the concrete one-node,
one-interface model `mRT`, whose values are all binary32-exact, returns
exactly the model. -/
theorem c1_write_read_roundtrip_witness :
    read_vm mRT.write_vm = some (f32Model mRT) :=
  c1_write_read_roundtrip mRT
    (of_decide_eq_true (by with_unfolding_all rfl))
    (by decide) (by decide) (by decide)
    (by decide) (by decide) (by decide) (by decide)
    (of_decide_eq_true (by with_unfolding_all rfl))
    (of_decide_eq_true (by with_unfolding_all rfl))

end PyVM
